
import Mathlib

/-!
Shallow embedding of the signed-webhook-service core: the decimal balance
ledger (`internal/infrastructure/repository`, backed by shopspring/decimal)
and the HMAC request validator with its nonce store
(`internal/infrastructure/validator`).  Machine integers are modelled as
`Int`/`Nat` with the explicit saturation/wrap-around behaviour of the Go
runtime where it matters (`time.Time.Sub`, int64 negation).
-/

/-! ## Digit strings -/

/-- Is `c` an ASCII decimal digit? -/
def isDigitChar (c : Char) : Bool := '0' ≤ c && c ≤ '9'

/-- Numeric value of an ASCII digit character. -/
def digitVal (c : Char) : Nat := c.toNat - 48

/-- ASCII digit character of a digit value. -/
def digitChr (d : Nat) : Char := Char.ofNat (48 + d)

/-- Value of a most-significant-first list of digit characters. -/
def natOfDigits (cs : List Char) : Nat := cs.foldl (fun a c => a * 10 + digitVal c) 0

/-- Base-10 digits of `n`, least significant first (`fuel`-bounded recursion). -/
def natDigitsRevAux : Nat → Nat → List Nat
  | 0, _ => []
  | fuel + 1, n => if n = 0 then [] else n % 10 :: natDigitsRevAux fuel (n / 10)

/-- Base-10 digits of `n`, least significant first (empty for 0). -/
def natDigitsRev (n : Nat) : List Nat := natDigitsRevAux n n

/-- Decimal digit characters of `n`, most significant first (`"0"` for 0),
mirroring `big.Int.String` for non-negative values. -/
def natRepr (n : Nat) : List Char :=
  if n = 0 then ['0'] else (natDigitsRev n).reverse.map digitChr

/-- Value of a least-significant-first digit list. -/
def valLSD : List Nat → Nat
  | [] => 0
  | d :: ds => d + 10 * valLSD ds

/-! ## shopspring/decimal model

A decimal is an arbitrary-precision integer coefficient together with a
base-10 exponent (`value * 10 ^ exp`), exactly as in shopspring/decimal. -/

/-- Arbitrary-precision decimal: `value * 10 ^ exp` (shopspring `Decimal`). -/
structure Decimal where
  value : Int
  exp : Int
deriving DecidableEq, Repr

/-- Smallest value of a Go `int32` (exponents are `int32` in shopspring). -/
def int32Min : Int := -(2 ^ 31)

/-- Largest value of a Go `int32`. -/
def int32Max : Int := 2 ^ 31 - 1

/-- Split a character list at the first character satisfying `p`:
returns the prefix before it and the suffix after it. -/
def splitFirst (p : Char → Bool) : List Char → Option (List Char × List Char)
  | [] => none
  | c :: rest =>
      if p c then some ([], rest)
      else (splitFirst p rest).map (fun q => (c :: q.1, q.2))

/-- Parse a non-empty all-digit character list (no sign). -/
def parseUnsignedDigits (cs : List Char) : Option Nat :=
  if cs ≠ [] ∧ cs.all isDigitChar then some (natOfDigits cs) else none

/-- Parse an optionally signed digit string, as `strconv.ParseInt` /
`big.Int.SetString` do for base 10 (sign, then one or more digits). -/
def parseSignedDigits (cs : List Char) : Option Int :=
  match cs with
  | [] => none
  | c :: rest =>
      if c = '-' then (parseUnsignedDigits rest).map (fun n => -(n : Int))
      else if c = '+' then (parseUnsignedDigits rest).map (fun n => (n : Int))
      else (parseUnsignedDigits (c :: rest)).map (fun n => (n : Int))

/-- shopspring `decimal.NewFromString`: optional scientific-notation suffix
(`e`/`E` with an `int32` exponent), at most one decimal point with a
non-empty fractional part, and a signed digit coefficient; the final
exponent must fit in an `int32`. -/
def decimalNewFromString (s : String) : Option Decimal :=
  let cs := s.data
  let expSplit : Option (List Char × Int) :=
    match splitFirst (fun c => c = 'e' || c = 'E') cs with
    | none => some (cs, 0)
    | some q =>
        match parseSignedDigits q.2 with
        | none => none
        | some e => if int32Min ≤ e ∧ e ≤ int32Max then some (q.1, e) else none
  match expSplit with
  | none => none
  | some ve =>
      let finish : Int → Int → Option Decimal := fun v exp =>
        if int32Min ≤ exp ∧ exp ≤ int32Max then some ⟨v, exp⟩ else none
      match splitFirst (fun c => c = '.') ve.1 with
      | none =>
          match parseSignedDigits ve.1 with
          | none => none
          | some v => finish v ve.2
      | some q =>
          if q.2.contains '.' then none
          else if q.2 = [] then none
          else
            match parseSignedDigits (q.1 ++ q.2) with
            | none => none
            | some v => finish v (ve.2 - q.2.length)

/-- shopspring `Decimal.Add`: rescale both operands to the smaller exponent
(exact) and add the coefficients. -/
def Decimal.add (a b : Decimal) : Decimal :=
  let e := min a.exp b.exp
  ⟨a.value * 10 ^ (a.exp - e).toNat + b.value * 10 ^ (b.exp - e).toNat, e⟩

/-- The coefficient of `d` rescaled to exponent `-8`, rounded half away from
zero — the integer `m` with `d.Round(8) = m * 10^-8` in shopspring terms. -/
def roundScaled8 (d : Decimal) : Int :=
  if -8 ≤ d.exp then d.value * 10 ^ (d.exp + 8).toNat
  else
    let scale : Nat := 10 ^ (-(d.exp + 8)).toNat
    let q := d.value.natAbs / scale
    let m := q + (if scale ≤ 2 * (d.value.natAbs % scale) then 1 else 0)
    if d.value < 0 then -(m : Int) else (m : Int)

/-- Left-pad a digit list with `'0'` to length 8. -/
def padLeft8 (cs : List Char) : List Char := List.replicate (8 - cs.length) '0' ++ cs

/-- Render the decimal `m * 10^-8` with an optional sign, the integer part,
a point and exactly eight fractional digits (shopspring `string` after
`Round(8)`). -/
def renderFixed8 (m : Int) : String :=
  (if m < 0 then "-" else "") ++ ⟨natRepr (m.natAbs / 10 ^ 8)⟩ ++ "." ++
    ⟨padLeft8 (natRepr (m.natAbs % 10 ^ 8))⟩

/-- shopspring `Decimal.StringFixed(8)`: round to 8 decimal places (half away
from zero) and render with exactly 8 fractional digits. -/
def Decimal.stringFixed8 (d : Decimal) : String := renderFixed8 (roundScaled8 d)

/-- `addDecimalStrings` from the in-memory ledger: empty operands default to
`"0"`, both operands are parsed with `decimal.NewFromString`, added, and the
result is rendered with `StringFixed(8)`. -/
def addDecimalStrings (a b : String) : Except String String :=
  let a := if a = "" then "0" else a
  let b := if b = "" then "0" else b
  match decimalNewFromString a with
  | none => Except.error ("invalid decimal string: " ++ a)
  | some ad =>
      match decimalNewFromString b with
      | none => Except.error ("invalid decimal string: " ++ b)
      | some bd => Except.ok (Decimal.stringFixed8 (ad.add bd))

deriving instance DecidableEq for Except

/-- Exact rational value of a decimal. -/
def qVal (d : Decimal) : ℚ := (d.value : ℚ) * (10 : ℚ) ^ d.exp

/-! ## In-memory ledger

Go maps are modelled as association lists with first-match lookup;
`aupdate` replaces in place or appends, `aerase` deletes, mirroring map
assignment and `delete`. -/

/-- Lookup in an association list (Go map read; `none` for a missing key). -/
def alookup {α : Type} (k : String) : List (String × α) → Option α
  | [] => none
  | p :: rest => if k = p.1 then some p.2 else alookup k rest

/-- Insert or replace in an association list (Go map assignment). -/
def aupdate {α : Type} (k : String) (v : α) : List (String × α) → List (String × α)
  | [] => [(k, v)]
  | p :: rest => if k = p.1 then (k, v) :: rest else p :: aupdate k v rest

/-- Remove a key from an association list (Go `delete`). -/
def aerase {α : Type} (k : String) : List (String × α) → List (String × α)
  | [] => []
  | p :: rest => if k = p.1 then rest else p :: aerase k rest

/-- A ledger entry (`entity.LedgerEntry`). -/
structure LedgerEntry where
  user : String
  asset : String
  amount : String
deriving DecidableEq, Repr

/-- Balance response (`entity.BalanceResponse`). -/
structure BalanceResponse where
  user : String
  balances : List (String × String)
deriving DecidableEq, Repr

/-- The in-memory ledger state: per-user per-asset balance strings and the
append-only audit list (`InMemoryLedger`). -/
structure InMemoryLedger where
  balances : List (String × List (String × String))
  entries : List LedgerEntry
deriving DecidableEq, Repr

/-- `InMemoryLedger.AddEntry`: initialise the user's balance map if absent,
read the current balance (default `"0"`), add the entry's amount with
`addDecimalStrings`, and on success store the new balance and append the
entry to the audit trail.  On a parse error the balance values and audit
trail are left as they were (but the empty per-user map, created before
parsing, remains). -/
def InMemoryLedger.addEntry (l : InMemoryLedger) (e : LedgerEntry) :
    InMemoryLedger × Option String :=
  let balances1 :=
    match alookup e.user l.balances with
    | none => aupdate e.user [] l.balances
    | some _ => l.balances
  let userMap := (alookup e.user balances1).getD []
  let current0 := (alookup e.asset userMap).getD ""
  let current := if current0 = "" then "0" else current0
  match addDecimalStrings current e.amount with
  | Except.error msg => ({ l with balances := balances1 }, some ("invalid amount format: " ++ msg))
  | Except.ok newBalance =>
      ({ balances := aupdate e.user (aupdate e.asset newBalance userMap) balances1,
         entries := l.entries ++ [e] }, none)

/-- `InMemoryLedger.GetBalance`: look up the user's balance map (empty when
absent), build an element-wise copy, and return it with a nil error. -/
def InMemoryLedger.getBalance (l : InMemoryLedger) (user : String) :
    BalanceResponse × Option String :=
  let userBalances := (alookup user l.balances).getD []
  let balancesCopy := userBalances.foldl (fun acc p => acc ++ [p]) []
  (⟨user, balancesCopy⟩, none)

/-! ## HMAC validator and nonce store

Times are unix instants; `nowNs` is the validator's clock in nanoseconds and
recorded nonce times are in unix seconds (`time.Unix(timestamp, 0)`).
`time.Time.Sub` saturates at the `int64` duration bounds and Go's signed
negation wraps, both modelled explicitly. -/

/-- Smallest value of a Go `int64` (`time.Duration` minimum). -/
def int64Min : Int := -(2 ^ 63)

/-- Largest value of a Go `int64` (`time.Duration` maximum). -/
def int64Max : Int := 2 ^ 63 - 1

/-- Nanoseconds per second. -/
def nsPerSecond : Int := 1000000000

/-- One hour in nanoseconds (`time.Hour`), the nonce retention window. -/
def hourNs : Int := 3600 * nsPerSecond

/-- `time.Time.Sub` in nanoseconds: the exact difference, saturated to the
`int64` duration range. -/
def satSub64 (a b : Int) : Int :=
  if a - b > int64Max then int64Max else if a - b < int64Min then int64Min else a - b

/-- Go `int64` negation: two's-complement wrap-around (`-int64Min = int64Min`). -/
def negWrap64 (d : Int) : Int := if d = int64Min then int64Min else -d

/-- `strconv.ParseInt(s, 10, 64)`: optional sign, one or more digits, value
within the `int64` range. -/
def parseInt64 (s : String) : Option Int :=
  match parseSignedDigits s.data with
  | none => none
  | some v => if int64Min ≤ v ∧ v ≤ int64Max then some v else none

/-- The nonce store: nonce string mapped to the recorded request time in
unix seconds (`NonceStore`). -/
structure NonceStore where
  nonces : List (String × Int)
deriving DecidableEq, Repr

/-- `NonceStore.cleanup`: remove every record older than one hour. -/
def NonceStore.cleanup (st : NonceStore) (nowNs : Int) : NonceStore :=
  ⟨st.nonces.filter (fun p => decide (satSub64 nowNs (p.2 * nsPerSecond) ≤ hourNs))⟩

/-- `NonceStore.IsValid`: reject a recorded nonce unless its record is older
than one hour (then lazily evict it); otherwise record the nonce with the
request time, sweep aged records when the store exceeds 10000 entries, and
accept. -/
def NonceStore.isValid (st : NonceStore) (nonce : String) (timestamp : Int) (nowNs : Int) :
    NonceStore × Bool :=
  let proceed : Option (List (String × Int)) :=
    match alookup nonce st.nonces with
    | some existingTime =>
        if hourNs < satSub64 nowNs (existingTime * nsPerSecond)
        then some (aerase nonce st.nonces) else none
    | none => some st.nonces
  match proceed with
  | none => (st, false)
  | some m =>
      let m2 := aupdate nonce timestamp m
      (if 10000 < m2.length then NonceStore.cleanup ⟨m2⟩ nowNs else ⟨m2⟩, true)

/-- The error kinds `ValidateRequest` can return, one per distinct
`fmt.Errorf` site. -/
inductive AuthError where
  | missingTimestamp
  | missingNonce
  | missingSignature
  | invalidTimestampFormat
  | timestampOutOfTolerance
  | duplicateNonce
  | invalidSignature
deriving DecidableEq, Repr

/-- `computeSignature`: sign `timestamp + "\n" + nonce + "\n" + body` with
the secret.  The hex-encoded HMAC-SHA256 primitive from the Go standard
library is a parameter `hmacSha256Hex secret message`. -/
def computeSignature (hmacSha256Hex : String → String → String)
    (secret timestamp nonce body : String) : String :=
  hmacSha256Hex secret (timestamp ++ "\n" ++ nonce ++ "\n" ++ body)

/-- The validator state (`HMACValidator`): shared secret, nonce store and
timestamp tolerance in nanoseconds (`time.Duration`). -/
structure HMACValidator where
  secret : String
  nonceStore : NonceStore
  timestampTolerance : Int
deriving DecidableEq, Repr

/-- The freshness distance the validator computes: `now.Sub(requestTime)`,
negated (with Go wrap-around) when negative. -/
def goTimeDiff (nowNs tNs : Int) : Int :=
  let timeDiff0 := satSub64 nowNs tNs
  if timeDiff0 < 0 then negWrap64 timeDiff0 else timeDiff0

/-- `HMACValidator.ValidateRequest`: presence of the timestamp, nonce and
signature headers; `ParseInt` of the timestamp; symmetric freshness window
against `nowNs`; nonce replay check (which records the nonce); and the
constant-time signature comparison.  Returns the updated validator and the
error, `none` on acceptance. -/
def HMACValidator.validateRequest (hmacSha256Hex : String → String → String)
    (v : HMACValidator) (nowNs : Int)
    (timestampStr nonce signature body : String) : HMACValidator × Option AuthError :=
  if timestampStr = "" then (v, some .missingTimestamp)
  else if nonce = "" then (v, some .missingNonce)
  else if signature = "" then (v, some .missingSignature)
  else
    match parseInt64 timestampStr with
    | none => (v, some .invalidTimestampFormat)
    | some timestamp =>
        if v.timestampTolerance < goTimeDiff nowNs (timestamp * nsPerSecond) then
          (v, some .timestampOutOfTolerance)
        else
          let res := v.nonceStore.isValid nonce timestamp nowNs
          let v2 : HMACValidator := { v with nonceStore := res.1 }
          if res.2 = false then (v2, some .duplicateNonce)
          else
            let expected := computeSignature hmacSha256Hex v.secret timestampStr nonce body
            if expected = signature then (v2, none) else (v2, some .invalidSignature)

/-! ## Claims C3 and C8: ledger error atomicity and balance snapshots -/

/-- The per-user balance map after AddEntry's initialisation step: an empty
map is created for a previously unseen user before the amount is parsed. -/
def balancesInit (l : InMemoryLedger) (e : LedgerEntry) :
    List (String × List (String × String)) :=
  match alookup e.user l.balances with
  | none => aupdate e.user [] l.balances
  | some _ => l.balances

/-- The current balance AddEntry reads for (user, asset): the stored string,
defaulting to `"0"` when absent. -/
def currentBalance (l : InMemoryLedger) (e : LedgerEntry) : String :=
  let c := (alookup e.asset ((alookup e.user (balancesInit l e)).getD [])).getD ""
  if c = "" then "0" else c

/-! ## Theorems -/

theorem natOfDigits_cons (c : Char) (cs : List Char) :
    natOfDigits (c :: cs) = natOfDigits cs + digitVal c * 10 ^ cs.length := by
  have h : ∀ (l : List Char) (a : Nat),
      l.foldl (fun a c => a * 10 + digitVal c) a = a * 10 ^ l.length + natOfDigits l := by
    intro l
    induction l with
    | nil => intro a; simp [natOfDigits]
    | cons x xs ih =>
        intro a
        simp only [List.foldl_cons, natOfDigits, List.length_cons]
        rw [ih (a * 10 + digitVal x), ih (0 * 10 + digitVal x)]
        ring
  simp only [natOfDigits, List.foldl_cons]
  rw [h cs (0 * 10 + digitVal c)]
  simp [natOfDigits]
  ring

theorem natOfDigits_append (xs ys : List Char) :
    natOfDigits (xs ++ ys) = natOfDigits xs * 10 ^ ys.length + natOfDigits ys := by
  induction xs with
  | nil => simp [natOfDigits]
  | cons x xs ih =>
      rw [List.cons_append, natOfDigits_cons, natOfDigits_cons, ih]
      simp [List.length_append]
      ring

theorem natOfDigits_replicate_zero (k : Nat) (cs : List Char) :
    natOfDigits (List.replicate k '0' ++ cs) = natOfDigits cs := by
  rw [natOfDigits_append]
  have : natOfDigits (List.replicate k '0') = 0 := by
    induction k with
    | zero => rfl
    | succ k ih => rw [List.replicate_succ, natOfDigits_cons, ih]; simp [digitVal]
  simp [this]

theorem digitVal_digitChr {d : Nat} (h : d < 10) : digitVal (digitChr d) = d := by
  interval_cases d <;> decide

theorem isDigitChar_digitChr {d : Nat} (h : d < 10) : isDigitChar (digitChr d) = true := by
  interval_cases d <;> decide

theorem natDigitsRevAux_lt10 {fuel n : Nat} {d : Nat}
    (h : d ∈ natDigitsRevAux fuel n) : d < 10 := by
  induction fuel generalizing n with
  | zero => simp [natDigitsRevAux] at h
  | succ fuel ih =>
      by_cases hn : n = 0
      · simp [natDigitsRevAux, hn] at h
      · simp only [natDigitsRevAux, hn, if_false, List.mem_cons] at h
        rcases h with h | h
        · subst h; exact Nat.mod_lt _ (by norm_num)
        · exact ih h

theorem valLSD_natDigitsRevAux {fuel n : Nat} (h : n ≤ fuel) :
    valLSD (natDigitsRevAux fuel n) = n := by
  induction fuel generalizing n with
  | zero => interval_cases n; rfl
  | succ fuel ih =>
      by_cases hn : n = 0
      · simp [natDigitsRevAux, hn, valLSD]
      · have hle : n / 10 ≤ fuel := by
          have := Nat.div_lt_self (Nat.pos_of_ne_zero hn) (by norm_num : 1 < 10)
          omega
        simp only [natDigitsRevAux, hn, if_false, valLSD]
        rw [ih hle]
        omega

theorem valLSD_natDigitsRev (n : Nat) : valLSD (natDigitsRev n) = n :=
  valLSD_natDigitsRevAux (Nat.le_refl n)

theorem natDigitsRev_lt10 {n d : Nat} (h : d ∈ natDigitsRev n) : d < 10 :=
  natDigitsRevAux_lt10 h

theorem natOfDigits_reverse_map (l : List Nat) (hl : ∀ d ∈ l, d < 10) :
    natOfDigits (l.reverse.map digitChr) = valLSD l := by
  induction l with
  | nil => rfl
  | cons d ds ih =>
      have hd : d < 10 := hl d (List.mem_cons_self d ds)
      have hds : ∀ x ∈ ds, x < 10 := fun x hx => hl x (List.mem_cons_of_mem d hx)
      simp only [List.reverse_cons, List.map_append, List.map_cons, List.map_nil]
      rw [natOfDigits_append, ih hds]
      simp [natOfDigits, digitVal_digitChr hd, valLSD]
      ring

theorem natOfDigits_natRepr (n : Nat) : natOfDigits (natRepr n) = n := by
  unfold natRepr
  by_cases hn : n = 0
  · simp [hn]; rfl
  · rw [if_neg hn, natOfDigits_reverse_map _ (fun d hd => natDigitsRev_lt10 hd),
      valLSD_natDigitsRev]

theorem natRepr_ne_nil (n : Nat) : natRepr n ≠ [] := by
  unfold natRepr
  by_cases hn : n = 0
  · simp [hn]
  · rw [if_neg hn]
    intro hcontra
    have := congrArg valLSD (congrArg (List.map digitVal) (congrArg List.reverse hcontra))
    have h2 := valLSD_natDigitsRev n
    rcases hd : natDigitsRev n with _ | ⟨d, ds⟩
    · rw [hd] at h2; simp [valLSD] at h2; exact hn h2.symm
    · rw [hd] at hcontra; simp at hcontra

theorem natRepr_all_digits (n : Nat) : ∀ c ∈ natRepr n, isDigitChar c = true := by
  unfold natRepr
  by_cases hn : n = 0
  · simp [hn]; decide
  · rw [if_neg hn]
    intro c hc
    rcases List.mem_map.mp hc with ⟨d, hd, rfl⟩
    exact isDigitChar_digitChr (natDigitsRev_lt10 (List.mem_reverse.mp hd))

theorem natDigitsRevAux_length {fuel n k : Nat} (hf : n ≤ fuel) (h : n < 10 ^ k) :
    (natDigitsRevAux fuel n).length ≤ k := by
  induction fuel generalizing n k with
  | zero => simp [natDigitsRevAux]
  | succ fuel ih =>
      by_cases hn : n = 0
      · simp [natDigitsRevAux, hn]
      · have hk : k ≠ 0 := by
          intro hk0; subst hk0; simp at h; omega
        obtain ⟨k', rfl⟩ := Nat.exists_eq_succ_of_ne_zero hk
        have hdivfuel : n / 10 ≤ fuel := by
          have := Nat.div_lt_self (Nat.pos_of_ne_zero hn) (by norm_num : 1 < 10)
          omega
        have hdiv : n / 10 < 10 ^ k' := by
          rw [Nat.div_lt_iff_lt_mul (by norm_num : 0 < 10)]
          calc n < 10 ^ (k' + 1) := h
            _ = 10 ^ k' * 10 := by ring
        simp only [natDigitsRevAux, hn, if_false, List.length_cons]
        exact Nat.succ_le_succ (ih hdivfuel hdiv)

theorem natRepr_length_le {n k : Nat} (hk : 0 < k) (h : n < 10 ^ k) :
    (natRepr n).length ≤ k := by
  unfold natRepr
  by_cases hn : n = 0
  · simp [hn]; omega
  · rw [if_neg hn]
    simp only [List.length_map, List.length_reverse]
    exact natDigitsRevAux_length (Nat.le_refl n) h

/-! ## Association-list and store lemmas -/

theorem alookup_aupdate_self {α : Type} (k : String) (v : α) (m : List (String × α)) :
    alookup k (aupdate k v m) = some v := by
  induction m with
  | nil => simp [aupdate, alookup]
  | cons p rest ih =>
      by_cases hk : k = p.1
      · simp [aupdate, alookup, hk]
      · simp [aupdate, alookup, hk, ih]

theorem alookup_aupdate_ne {α : Type} {k k0 : String} (hk : k ≠ k0) (v : α)
    (m : List (String × α)) : alookup k (aupdate k0 v m) = alookup k m := by
  induction m with
  | nil => simp [aupdate, alookup, hk]
  | cons p rest ih =>
      by_cases hp : k0 = p.1
      · subst hp
        simp [aupdate, alookup, hk, ih]
      · by_cases hkp : k = p.1
        · simp [aupdate, alookup, hp, hkp]
        · simp [aupdate, alookup, hp, hkp, ih]

theorem aupdate_length_new {α : Type} {k : String} {m : List (String × α)}
    (h : alookup k m = none) (v : α) : (aupdate k v m).length = m.length + 1 := by
  induction m with
  | nil => simp [aupdate]
  | cons p rest ih =>
      by_cases hk : k = p.1
      · simp [alookup, hk] at h
      · simp only [alookup, hk, if_neg] at h
        simp [aupdate, hk, ih h]

theorem foldl_append_copy {α : Type} (m : List α) :
    m.foldl (fun acc p => acc ++ [p]) [] = m := by
  have h : ∀ (l acc : List α), l.foldl (fun acc p => acc ++ [p]) acc = acc ++ l := by
    intro l
    induction l with
    | nil => intro acc; simp
    | cons x xs ih => intro acc; simp [List.foldl_cons, ih]
  simpa using h m []

theorem int64Max_val : int64Max = 9223372036854775807 := by norm_num [int64Max]

theorem int64Min_val : int64Min = -9223372036854775808 := by norm_num [int64Min]

theorem hourNs_val : hourNs = 3600000000000 := by norm_num [hourNs, nsPerSecond]

theorem satSub64_in_range {a b : Int} (h1 : int64Min ≤ a - b) (h2 : a - b ≤ int64Max) :
    satSub64 a b = a - b := by
  rw [satSub64, if_neg (by omega), if_neg (by omega)]

theorem goTimeDiff_small {now tns tol : Int} (hmax : tol ≤ int64Max)
    (h1 : -tol ≤ now - tns) (h2 : now - tns ≤ tol) :
    goTimeDiff now tns ≤ tol := by
  have htol0 : 0 ≤ tol := by omega
  have hmaxv := int64Max_val
  have hminv := int64Min_val
  have hs : satSub64 now tns = now - tns := satSub64_in_range (by omega) (by omega)
  rw [goTimeDiff]
  simp only [hs]
  by_cases hneg : now - tns < 0
  · rw [if_pos hneg, negWrap64, if_neg (by omega)]
    omega
  · rw [if_neg hneg]
    omega

theorem nonceStore_isValid_not_seen {st : NonceStore} {n : String} (t now : Int)
    (h : alookup n st.nonces = none) (hlen : st.nonces.length < 10000) :
    st.isValid n t now = (⟨aupdate n t st.nonces⟩, true) := by
  rw [NonceStore.isValid]
  simp only [h]
  rw [if_neg (by rw [aupdate_length_new h]; omega)]

theorem nonceStore_isValid_seen_recent {st : NonceStore} {n : String} {t0 : Int} (t now : Int)
    (h : alookup n st.nonces = some t0)
    (hrec : satSub64 now (t0 * nsPerSecond) ≤ hourNs) :
    st.isValid n t now = (st, false) := by
  rw [NonceStore.isValid]
  simp only [h]
  rw [if_neg (by omega)]

/-! ## Claim C7: ordered, short-circuiting checks -/

/-- C7: ValidateRequest performs its checks in a fixed order — timestamp
presence, nonce presence, signature presence, timestamp parse, freshness
window, replay check, signature check — short-circuiting on the first
failure; the three presence failures raise three distinct error kinds, and
any failure before the replay check leaves the validator unchanged. -/
theorem validateRequest_ordered_checks (h : String → String → String)
    (v : HMACValidator) (now : Int) (ts n sg b : String) :
    ((HMACValidator.validateRequest h v now ts n sg b).2 = some AuthError.missingTimestamp
      ↔ ts = "")
    ∧ ((HMACValidator.validateRequest h v now ts n sg b).2 = some AuthError.missingNonce
      ↔ ts ≠ "" ∧ n = "")
    ∧ ((HMACValidator.validateRequest h v now ts n sg b).2 = some AuthError.missingSignature
      ↔ ts ≠ "" ∧ n ≠ "" ∧ sg = "")
    ∧ ((HMACValidator.validateRequest h v now ts n sg b).2 = some AuthError.invalidTimestampFormat
      ↔ ts ≠ "" ∧ n ≠ "" ∧ sg ≠ "" ∧ parseInt64 ts = none)
    ∧ (∀ t, parseInt64 ts = some t →
      ((HMACValidator.validateRequest h v now ts n sg b).2 = some AuthError.timestampOutOfTolerance
        ↔ ts ≠ "" ∧ n ≠ "" ∧ sg ≠ "" ∧ v.timestampTolerance < goTimeDiff now (t * nsPerSecond)))
    ∧ (∀ t, parseInt64 ts = some t →
      ((HMACValidator.validateRequest h v now ts n sg b).2 = some AuthError.duplicateNonce
        ↔ ts ≠ "" ∧ n ≠ "" ∧ sg ≠ "" ∧ ¬ v.timestampTolerance < goTimeDiff now (t * nsPerSecond)
          ∧ (v.nonceStore.isValid n t now).2 = false))
    ∧ (∀ t, parseInt64 ts = some t →
      ((HMACValidator.validateRequest h v now ts n sg b).2 = some AuthError.invalidSignature
        ↔ ts ≠ "" ∧ n ≠ "" ∧ sg ≠ "" ∧ ¬ v.timestampTolerance < goTimeDiff now (t * nsPerSecond)
          ∧ (v.nonceStore.isValid n t now).2 = true
          ∧ computeSignature h v.secret ts n b ≠ sg))
    ∧ ((ts = "" ∨ n = "" ∨ sg = "" ∨ parseInt64 ts = none) →
        (HMACValidator.validateRequest h v now ts n sg b).1 = v) := by
  by_cases hts : ts = ""
  · simp [HMACValidator.validateRequest, hts]
  by_cases hn : n = ""
  · simp [HMACValidator.validateRequest, hts, hn]
  by_cases hsg : sg = ""
  · simp [HMACValidator.validateRequest, hts, hn, hsg]
  cases hp : parseInt64 ts with
  | none => simp [HMACValidator.validateRequest, hts, hn, hsg, hp]
  | some t =>
      by_cases htol : v.timestampTolerance < goTimeDiff now (t * nsPerSecond)
      · simp [HMACValidator.validateRequest, hts, hn, hsg, hp, htol]
      · cases hnv : (v.nonceStore.isValid n t now).2 with
        | false =>
            simp [HMACValidator.validateRequest, hts, hn, hsg, hp, htol, hnv]
            omega
        | true =>
            by_cases hsig : computeSignature h v.secret ts n b = sg
            · simp [HMACValidator.validateRequest, hts, hn, hsg, hp, htol, hnv, hsig]
              omega
            · simp [HMACValidator.validateRequest, hts, hn, hsg, hp, htol, hnv, hsig]
              omega

theorem validateRequest_ordered_checks_witness :
    (HMACValidator.validateRequest (fun s m => s ++ "|" ++ m)
        ⟨"sec", ⟨[]⟩, 300000000000⟩ 0 "" "n" "s" "b").2 = some AuthError.missingTimestamp
    ∧ (HMACValidator.validateRequest (fun s m => s ++ "|" ++ m)
        ⟨"sec", ⟨[]⟩, 300000000000⟩ 0 "" "n" "s" "b").1 = ⟨"sec", ⟨[]⟩, 300000000000⟩ := by
  have h := validateRequest_ordered_checks (fun s m => s ++ "|" ++ m)
    ⟨"sec", ⟨[]⟩, 300000000000⟩ 0 "" "n" "s" "b"
  exact ⟨h.1.mpr rfl, h.2.2.2.2.2.2.2 (Or.inl rfl)⟩

/-! ## Claim C1: the signature check -/

/-- C1: once the presence, parse, freshness and replay checks pass, the
expected signature is the hex HMAC-SHA256 primitive applied to exactly
`timestamp ++ "\n" ++ nonce ++ "\n" ++ rawBody`, and validation fails with
`invalidSignature` exactly when the claimed signature differs from this
expected value as a whole string, succeeding exactly when they are equal. -/
theorem validateRequest_signature_exact (h : String → String → String)
    (v : HMACValidator) (now : Int) (ts n sg b : String) (t : Int)
    (hts : ts ≠ "") (hn : n ≠ "") (hsg : sg ≠ "")
    (hp : parseInt64 ts = some t)
    (hfresh : ¬ v.timestampTolerance < goTimeDiff now (t * nsPerSecond))
    (hnonce : (v.nonceStore.isValid n t now).2 = true) :
    ((HMACValidator.validateRequest h v now ts n sg b).2 = some AuthError.invalidSignature
      ↔ sg ≠ h v.secret (ts ++ "\n" ++ n ++ "\n" ++ b))
    ∧ ((HMACValidator.validateRequest h v now ts n sg b).2 = none
      ↔ sg = h v.secret (ts ++ "\n" ++ n ++ "\n" ++ b)) := by
  by_cases hsig : computeSignature h v.secret ts n b = sg
  · have hres : (HMACValidator.validateRequest h v now ts n sg b).2 = none := by
      simp [HMACValidator.validateRequest, hts, hn, hsg, hp, hfresh, hnonce, hsig]
    constructor
    · rw [hres]
      simp
      exact hsig.symm
    · rw [hres]
      simp
      exact hsig.symm
  · have hres : (HMACValidator.validateRequest h v now ts n sg b).2 =
        some AuthError.invalidSignature := by
      simp [HMACValidator.validateRequest, hts, hn, hsg, hp, hfresh, hnonce, hsig]
    constructor
    · rw [hres]
      simp
      exact fun hc => hsig (by rw [computeSignature]; exact hc.symm)
    · rw [hres]
      simp
      exact fun hc => hsig (by rw [computeSignature]; exact hc.symm)

theorem validateRequest_signature_exact_witness :
    (HMACValidator.validateRequest (fun s m => s ++ "|" ++ m)
        ⟨"sec", ⟨[]⟩, 300000000000⟩ 1000000000000 "1000" "n1" "bad" "body").2 =
      some AuthError.invalidSignature := by
  have h := validateRequest_signature_exact (fun s m => s ++ "|" ++ m)
    ⟨"sec", ⟨[]⟩, 300000000000⟩ 1000000000000 "1000" "n1" "bad" "body" 1000
    (by decide) (by decide) (by decide) (by decide) (by decide) (by decide)
  exact h.1.mpr (by decide)

/-! ## Claim C5: the freshness window at the int64 boundary -/

/-- C5 (code evaluation at the failing input): with a five-minute tolerance
and the clock at unix second 1760000000, the timestamp `"12000000000"` —
10240000000 seconds in the future, far beyond the tolerance — is accepted
when correctly signed, because `time.Time.Sub` saturates at the minimum
`int64` duration and Go's negation wraps it back to the same negative
value, which never exceeds the tolerance; the past timestamp of the same
magnitude, `"-8480000000"`, is rejected as out of tolerance. -/
theorem validateRequest_future_overflow_accepted :
    (HMACValidator.validateRequest (fun s m => s ++ "|" ++ m)
        ⟨"sec", ⟨[]⟩, 300 * nsPerSecond⟩ (1760000000 * nsPerSecond)
        "12000000000" "n1" "sec|12000000000\nn1\nbody" "body").2 = none
    ∧ 300 * nsPerSecond < (12000000000 - 1760000000) * nsPerSecond
    ∧ (HMACValidator.validateRequest (fun s m => s ++ "|" ++ m)
        ⟨"sec", ⟨[]⟩, 300 * nsPerSecond⟩ (1760000000 * nsPerSecond)
        "-8480000000" "n1" "sec|-8480000000\nn1\nbody" "body").2 =
      some AuthError.timestampOutOfTolerance
    ∧ 1760000000 - -8480000000 = 12000000000 - 1760000000 := by decide

/-! ## Claim C2: at-most-once acceptance -/

/-- C2 (amended): when the configured tolerance is at most the one-hour
nonce retention window, a request accepted once cannot be accepted again:
a second call with the identical timestamp, nonce and signature whose
observation time is still within tolerance of the timestamp fails with
`duplicateNonce` and leaves the validator unchanged. -/
theorem validateRequest_at_most_once (h : String → String → String)
    (v : HMACValidator) (now1 now2 t : Int) (ts n b : String)
    (htol : v.timestampTolerance ≤ hourNs)
    (hts : ts ≠ "") (hn : n ≠ "")
    (hp : parseInt64 ts = some t)
    (hsg : computeSignature h v.secret ts n b ≠ "")
    (hf1a : -v.timestampTolerance ≤ now1 - t * nsPerSecond)
    (hf1b : now1 - t * nsPerSecond ≤ v.timestampTolerance)
    (hf2a : -v.timestampTolerance ≤ now2 - t * nsPerSecond)
    (hf2b : now2 - t * nsPerSecond ≤ v.timestampTolerance)
    (hlookup : alookup n v.nonceStore.nonces = none)
    (hlen : v.nonceStore.nonces.length < 10000) :
    (HMACValidator.validateRequest h v now1 ts n
        (computeSignature h v.secret ts n b) b).2 = none
    ∧ HMACValidator.validateRequest h
        (HMACValidator.validateRequest h v now1 ts n
          (computeSignature h v.secret ts n b) b).1 now2 ts n
        (computeSignature h v.secret ts n b) b =
      ((HMACValidator.validateRequest h v now1 ts n
          (computeSignature h v.secret ts n b) b).1,
        some AuthError.duplicateNonce) := by
  have hmax : v.timestampTolerance ≤ int64Max := by
    rw [int64Max_val]; rw [hourNs_val] at htol; omega
  have hfresh1 : ¬ v.timestampTolerance < goTimeDiff now1 (t * nsPerSecond) := by
    have := goTimeDiff_small hmax hf1a hf1b
    omega
  have hfresh2 : ¬ v.timestampTolerance < goTimeDiff now2 (t * nsPerSecond) := by
    have := goTimeDiff_small hmax hf2a hf2b
    omega
  have hnv := nonceStore_isValid_not_seen t now1 hlookup hlen
  have hfirst : HMACValidator.validateRequest h v now1 ts n
      (computeSignature h v.secret ts n b) b =
      ({ v with nonceStore := ⟨aupdate n t v.nonceStore.nonces⟩ }, none) := by
    simp [HMACValidator.validateRequest, hts, hn, hsg, hp, hfresh1, hnv]
  have hlook2 : alookup n (aupdate n t v.nonceStore.nonces) = some t :=
    alookup_aupdate_self n t v.nonceStore.nonces
  have hrec : satSub64 now2 (t * nsPerSecond) ≤ hourNs := by
    have hs : satSub64 now2 (t * nsPerSecond) = now2 - t * nsPerSecond := by
      apply satSub64_in_range
      · rw [int64Min_val]; rw [int64Max_val] at hmax; omega
      · rw [int64Max_val] at hmax ⊢; omega
    rw [hs]; omega
  have hnv2 : NonceStore.isValid ⟨aupdate n t v.nonceStore.nonces⟩ n t now2 =
      (⟨aupdate n t v.nonceStore.nonces⟩, false) :=
    nonceStore_isValid_seen_recent t now2 hlook2 hrec
  refine ⟨by rw [hfirst], ?_⟩
  rw [hfirst]
  simp [HMACValidator.validateRequest, hts, hn, hsg, hp, hfresh2, hnv2]

theorem validateRequest_at_most_once_witness :
    (HMACValidator.validateRequest (fun s m => s ++ "|" ++ m)
        ⟨"sec", ⟨[]⟩, 300000000000⟩ 1005000000000 "1000" "n1" "sec|1000\nn1\nb" "b").2 = none
    ∧ (HMACValidator.validateRequest (fun s m => s ++ "|" ++ m)
        (HMACValidator.validateRequest (fun s m => s ++ "|" ++ m)
          ⟨"sec", ⟨[]⟩, 300000000000⟩ 1005000000000 "1000" "n1" "sec|1000\nn1\nb" "b").1
        1010000000000 "1000" "n1" "sec|1000\nn1\nb" "b").2 =
      some AuthError.duplicateNonce := by
  have h := validateRequest_at_most_once (fun s m => s ++ "|" ++ m)
    ⟨"sec", ⟨[]⟩, 300000000000⟩ 1005000000000 1010000000000 1000 "1000" "n1" "b"
    (by decide) (by decide) (by decide) (by decide) (by decide) (by decide)
    (by decide) (by decide) (by decide) (by decide) (by decide)
  exact ⟨h.1, congrArg Prod.snd h.2⟩

/-- C2 (counterexample): with a configurable two-hour tolerance, a valid
request whose timestamp is ninety minutes old is accepted, and the
identical request — same timestamp, nonce and signature — is accepted a
second time, because the nonce record (keyed by the request timestamp) is
already older than the one-hour retention window and is lazily evicted. -/
theorem validateRequest_accepted_twice_cx :
    (HMACValidator.validateRequest (fun s m => s ++ "|" ++ m)
        ⟨"sec", ⟨[]⟩, 7200 * nsPerSecond⟩ (5400 * nsPerSecond) "0" "n" "sec|0\nn\nb" "b").2 = none
    ∧ (HMACValidator.validateRequest (fun s m => s ++ "|" ++ m)
        (HMACValidator.validateRequest (fun s m => s ++ "|" ++ m)
          ⟨"sec", ⟨[]⟩, 7200 * nsPerSecond⟩ (5400 * nsPerSecond) "0" "n" "sec|0\nn\nb" "b").1
        (5400 * nsPerSecond) "0" "n" "sec|0\nn\nb" "b").2 = none := by decide

/-! ## Claim C10: a failed signature check still consumes the nonce -/

/-- C10: a request that passes the presence, parse, freshness and replay
checks but fails the signature check is rejected with `invalidSignature`
yet records its nonce, so a subsequent request with the same nonce within
the retention window — even correctly signed with a fresh timestamp — is
rejected with `duplicateNonce`. -/
theorem validateRequest_bad_signature_consumes_nonce (h : String → String → String)
    (v : HMACValidator) (now1 now2 t1 t2 : Int) (ts1 ts2 n sg1 b1 b2 : String)
    (hts1 : ts1 ≠ "") (hn : n ≠ "") (hsg1 : sg1 ≠ "")
    (hp1 : parseInt64 ts1 = some t1)
    (hmax : v.timestampTolerance ≤ int64Max)
    (hf1a : -v.timestampTolerance ≤ now1 - t1 * nsPerSecond)
    (hf1b : now1 - t1 * nsPerSecond ≤ v.timestampTolerance)
    (hlookup : alookup n v.nonceStore.nonces = none)
    (hlen : v.nonceStore.nonces.length < 10000)
    (hbad : computeSignature h v.secret ts1 n b1 ≠ sg1)
    (hts2 : ts2 ≠ "")
    (hsg2 : computeSignature h v.secret ts2 n b2 ≠ "")
    (hp2 : parseInt64 ts2 = some t2)
    (hf2a : -v.timestampTolerance ≤ now2 - t2 * nsPerSecond)
    (hf2b : now2 - t2 * nsPerSecond ≤ v.timestampTolerance)
    (hret : satSub64 now2 (t1 * nsPerSecond) ≤ hourNs) :
    (HMACValidator.validateRequest h v now1 ts1 n sg1 b1).2 = some AuthError.invalidSignature
    ∧ (HMACValidator.validateRequest h
        (HMACValidator.validateRequest h v now1 ts1 n sg1 b1).1 now2 ts2 n
        (computeSignature h v.secret ts2 n b2) b2).2 = some AuthError.duplicateNonce := by
  have hfresh1 : ¬ v.timestampTolerance < goTimeDiff now1 (t1 * nsPerSecond) := by
    have := goTimeDiff_small hmax hf1a hf1b
    omega
  have hfresh2 : ¬ v.timestampTolerance < goTimeDiff now2 (t2 * nsPerSecond) := by
    have := goTimeDiff_small hmax hf2a hf2b
    omega
  have hnv := nonceStore_isValid_not_seen t1 now1 hlookup hlen
  have hfirst : HMACValidator.validateRequest h v now1 ts1 n sg1 b1 =
      ({ v with nonceStore := ⟨aupdate n t1 v.nonceStore.nonces⟩ },
        some AuthError.invalidSignature) := by
    simp [HMACValidator.validateRequest, hts1, hn, hsg1, hp1, hfresh1, hnv, hbad]
  have hlook2 : alookup n (aupdate n t1 v.nonceStore.nonces) = some t1 :=
    alookup_aupdate_self n t1 v.nonceStore.nonces
  have hnv2 : NonceStore.isValid ⟨aupdate n t1 v.nonceStore.nonces⟩ n t2 now2 =
      (⟨aupdate n t1 v.nonceStore.nonces⟩, false) :=
    nonceStore_isValid_seen_recent t2 now2 hlook2 hret
  refine ⟨by rw [hfirst], ?_⟩
  rw [hfirst]
  simp [HMACValidator.validateRequest, hts2, hn, hsg2, hp2, hfresh2, hnv2]

theorem validateRequest_bad_signature_consumes_nonce_witness :
    (HMACValidator.validateRequest (fun s m => s ++ "|" ++ m)
        ⟨"sec", ⟨[]⟩, 300000000000⟩ 1005000000000 "1000" "n1" "wrong" "b").2 =
      some AuthError.invalidSignature
    ∧ (HMACValidator.validateRequest (fun s m => s ++ "|" ++ m)
        (HMACValidator.validateRequest (fun s m => s ++ "|" ++ m)
          ⟨"sec", ⟨[]⟩, 300000000000⟩ 1005000000000 "1000" "n1" "wrong" "b").1
        1010000000000 "1010" "n1" "sec|1010\nn1\nb" "b").2 =
      some AuthError.duplicateNonce := by
  have h := validateRequest_bad_signature_consumes_nonce (fun s m => s ++ "|" ++ m)
    ⟨"sec", ⟨[]⟩, 300000000000⟩ 1005000000000 1010000000000 1000 1010
    "1000" "1010" "n1" "wrong" "b" "b"
    (by decide) (by decide) (by decide) (by decide) (by decide) (by decide)
    (by decide) (by decide) (by decide) (by decide) (by decide) (by decide)
    (by decide) (by decide) (by decide) (by decide)
  exact h

/-! ## Claim C6: nonce store first/second call behaviour -/

/-- C6 (amended): on a fresh store the first `IsValid(n, t)` returns true
and records `(n, t)`; an immediate second call returns false provided the
record is within the one-hour retention window of the store's clock, but
when the record is already older than the retention window the second call
is treated as unseen: it returns true and re-records the nonce. -/
theorem nonceStore_isValid_first_second (n : String) (t now : Int) :
    (NonceStore.isValid ⟨[]⟩ n t now).2 = true
    ∧ (NonceStore.isValid ⟨[]⟩ n t now).1 = ⟨[(n, t)]⟩
    ∧ (satSub64 now (t * nsPerSecond) ≤ hourNs →
        NonceStore.isValid ⟨[(n, t)]⟩ n t now = (⟨[(n, t)]⟩, false))
    ∧ (hourNs < satSub64 now (t * nsPerSecond) →
        NonceStore.isValid ⟨[(n, t)]⟩ n t now = (⟨[(n, t)]⟩, true)) := by
  have hfirst : NonceStore.isValid ⟨[]⟩ n t now = (⟨[(n, t)]⟩, true) := by
    have h := @nonceStore_isValid_not_seen ⟨[]⟩ n t now (by rfl) (by simp)
    simpa [aupdate] using h
  refine ⟨by rw [hfirst], by rw [hfirst], fun hrec => ?_, fun haged => ?_⟩
  · exact nonceStore_isValid_seen_recent t now (by simp [alookup]) hrec
  · rw [NonceStore.isValid]
    simp [alookup, haged, aerase, aupdate]

theorem nonceStore_isValid_first_second_witness :
    (NonceStore.isValid ⟨[]⟩ "n" 1000 (1000 * nsPerSecond)).2 = true
    ∧ NonceStore.isValid ⟨[("n", 1000)]⟩ "n" 1000 (1000 * nsPerSecond) =
      (⟨[("n", 1000)]⟩, false)
    ∧ NonceStore.isValid ⟨[("n", 1000)]⟩ "n" 1000 (10000 * nsPerSecond) =
      (⟨[("n", 1000)]⟩, true) := by
  refine ⟨(nonceStore_isValid_first_second "n" 1000 (1000 * nsPerSecond)).1,
    (nonceStore_isValid_first_second "n" 1000 (1000 * nsPerSecond)).2.2.1 (by decide),
    (nonceStore_isValid_first_second "n" 1000 (10000 * nsPerSecond)).2.2.2 (by decide)⟩

/-- C6 (counterexample): with observation time 0 and the store's clock
10000 seconds later, the first call returns true and an immediate second
call with the same nonce also returns true — the record, keyed by the old
observation time, is already outside the retention window — refuting that
an immediate second call always returns false. -/
theorem nonceStore_immediate_second_true_cx :
    (NonceStore.isValid ⟨[]⟩ "n" 0 (10000 * nsPerSecond)).2 = true
    ∧ ((NonceStore.isValid ⟨[]⟩ "n" 0 (10000 * nsPerSecond)).1.isValid
        "n" 0 (10000 * nsPerSecond)).2 = true := by decide

theorem addEntry_eq (l : InMemoryLedger) (e : LedgerEntry) :
    l.addEntry e =
      match addDecimalStrings (currentBalance l e) e.amount with
      | Except.error msg =>
          ({ l with balances := balancesInit l e }, some ("invalid amount format: " ++ msg))
      | Except.ok nb =>
          ({ balances := aupdate e.user
              (aupdate e.asset nb ((alookup e.user (balancesInit l e)).getD []))
              (balancesInit l e),
             entries := l.entries ++ [e] }, none) := rfl

theorem addEntry_error_cases (l : InMemoryLedger) (e : LedgerEntry)
    (l2 : InMemoryLedger) (msg : String) (h : l.addEntry e = (l2, some msg)) :
    l2.entries = l.entries
    ∧ (∀ u, l2.getBalance u = l.getBalance u)
    ∧ (∀ m0, alookup e.user l.balances = some m0 → l2 = l)
    ∧ (alookup e.user l.balances = none → l2.balances = aupdate e.user [] l.balances) := by
  rw [InMemoryLedger.addEntry] at h
  cases hu : alookup e.user l.balances with
  | some m0 =>
      rw [hu] at h
      split at h
      · rw [Prod.mk.injEq] at h
        have hl2 : l2 = { l with balances := l.balances } := h.1.symm
        subst hl2
        exact ⟨rfl, fun u => rfl, fun _ _ => rfl, fun hm => absurd hm (by simp)⟩
      · rw [Prod.mk.injEq] at h
        exact absurd h.2 (by simp)
  | none =>
      rw [hu] at h
      split at h
      · rw [Prod.mk.injEq] at h
        have hl2 : l2 = { l with balances := aupdate e.user [] l.balances } := h.1.symm
        subst hl2
        refine ⟨rfl, fun u => ?_, fun m0 hm0 => absurd hm0 (by simp), fun _ => rfl⟩
        by_cases huser : u = e.user
        · subst huser
          simp [InMemoryLedger.getBalance, alookup_aupdate_self, hu]
        · simp [InMemoryLedger.getBalance, alookup_aupdate_ne huser]
      · rw [Prod.mk.injEq] at h
        exact absurd h.2 (by simp)

theorem addEntry_ok_cases (l : InMemoryLedger) (e : LedgerEntry)
    (l2 : InMemoryLedger) (h : l.addEntry e = (l2, none)) :
    l2.entries = l.entries ++ [e]
    ∧ ∃ nb, addDecimalStrings (currentBalance l e) e.amount = Except.ok nb
        ∧ alookup e.asset ((alookup e.user l2.balances).getD []) = some nb := by
  rw [addEntry_eq] at h
  cases hadd : addDecimalStrings (currentBalance l e) e.amount with
  | error msg =>
      rw [hadd] at h
      rw [Prod.mk.injEq] at h
      exact absurd h.2 (by simp)
  | ok nb =>
      rw [hadd] at h
      rw [Prod.mk.injEq] at h
      obtain ⟨h1, h2⟩ := h
      subst h1
      exact ⟨rfl, nb, rfl, by simp [alookup_aupdate_self]⟩

/-- C3 (amended): AddEntry is atomic up to one artifact.  On an error the
audit list is unchanged, every GetBalance answer is unchanged, and for a
user that already had a balance map the whole state is unchanged — but for
a previously unseen user the balances map acquires an empty per-user entry,
created before the amount was parsed.  On success exactly one audit entry
is appended and the (user, asset) balance is set to the sum computed from
the previous balance. -/
theorem addEntry_atomic (l : InMemoryLedger) (e : LedgerEntry) :
    (∀ l2 msg, l.addEntry e = (l2, some msg) →
      l2.entries = l.entries
      ∧ (∀ u, l2.getBalance u = l.getBalance u)
      ∧ (∀ m0, alookup e.user l.balances = some m0 → l2 = l)
      ∧ (alookup e.user l.balances = none → l2.balances = aupdate e.user [] l.balances))
    ∧ (∀ l2, l.addEntry e = (l2, none) →
      l2.entries = l.entries ++ [e]
      ∧ ∃ nb, addDecimalStrings (currentBalance l e) e.amount = Except.ok nb
          ∧ alookup e.asset ((alookup e.user l2.balances).getD []) = some nb) :=
  ⟨fun l2 msg h => addEntry_error_cases l e l2 msg h,
   fun l2 h => addEntry_ok_cases l e l2 h⟩

/-- C3 (counterexample): on a fresh ledger an AddEntry with an unparsable
amount returns an error, yet the ledger state is not completely unchanged:
the balances map has acquired an (empty) entry for the user. -/
theorem addEntry_error_changes_state_cx :
    ((InMemoryLedger.addEntry ⟨[], []⟩ ⟨"u", "a", "x"⟩).2.isSome = true)
    ∧ (InMemoryLedger.addEntry ⟨[], []⟩ ⟨"u", "a", "x"⟩).1 ≠ (⟨[], []⟩ : InMemoryLedger)
    ∧ (InMemoryLedger.addEntry ⟨[], []⟩ ⟨"u", "a", "x"⟩).1.balances = [("u", [])] := by decide

theorem addEntry_atomic_witness :
    (InMemoryLedger.addEntry ⟨[("u", [("a", "1.00000000")])], []⟩ ⟨"u", "a", "x"⟩).1 =
      (⟨[("u", [("a", "1.00000000")])], []⟩ : InMemoryLedger)
    ∧ (InMemoryLedger.addEntry ⟨[], []⟩ ⟨"u", "a", "1.5"⟩).1.entries =
      [⟨"u", "a", "1.5"⟩] := by
  constructor
  · have h := addEntry_atomic ⟨[("u", [("a", "1.00000000")])], []⟩ ⟨"u", "a", "x"⟩
    exact ((h.1 (InMemoryLedger.addEntry ⟨[("u", [("a", "1.00000000")])], []⟩
      ⟨"u", "a", "x"⟩).1 "invalid amount format: invalid decimal string: x"
      (by decide)).2.2.1) [("a", "1.00000000")] (by decide)
  · have h := addEntry_atomic ⟨[], []⟩ ⟨"u", "a", "1.5"⟩
    exact (h.2 (InMemoryLedger.addEntry ⟨[], []⟩ ⟨"u", "a", "1.5"⟩).1 (by decide)).1

/-- C8: GetBalance never returns an error; the snapshot is labelled with the
queried user and its balances are an element-wise copy equal to the stored
per-user map; a user with no stored balances — absent or present with an
empty map — receives an empty mapping, not an error. -/
theorem getBalance_no_entries (l : InMemoryLedger) (u : String) :
    (l.getBalance u).2 = none
    ∧ (l.getBalance u).1.user = u
    ∧ (l.getBalance u).1.balances = (alookup u l.balances).getD []
    ∧ ((alookup u l.balances = none ∨ alookup u l.balances = some []) →
        l.getBalance u = (⟨u, []⟩, none)) := by
  refine ⟨rfl, rfl, ?_, ?_⟩
  · simp [InMemoryLedger.getBalance, foldl_append_copy]
  · rintro (h | h) <;> simp [InMemoryLedger.getBalance, h, foldl_append_copy]

theorem getBalance_no_entries_witness :
    (InMemoryLedger.getBalance ⟨[("u1", [("BTC", "1.00000000")])], []⟩ "nobody") =
      (⟨"nobody", []⟩, none) := by
  exact (getBalance_no_entries ⟨[("u1", [("BTC", "1.00000000")])], []⟩ "nobody").2.2.2
    (Or.inl (by decide))

theorem ten_zpow_ne_zero (e : Int) : (10 : ℚ) ^ e ≠ 0 :=
  zpow_ne_zero e (by norm_num)

theorem qVal_mk (v e : Int) : qVal ⟨v, e⟩ = (v : ℚ) * (10 : ℚ) ^ e := rfl

theorem qVal_add (a b : Decimal) : qVal (a.add b) = qVal a + qVal b := by
  rcases a with ⟨va, ea⟩
  rcases b with ⟨vb, eb⟩
  rw [Decimal.add]
  simp only [qVal_mk]
  have hmin : min ea eb ≤ ea ∧ min ea eb ≤ eb := ⟨min_le_left _ _, min_le_right _ _⟩
  have hca : ((ea - min ea eb).toNat : Int) = ea - min ea eb := Int.toNat_of_nonneg (by omega)
  have hcb : ((eb - min ea eb).toNat : Int) = eb - min ea eb := Int.toNat_of_nonneg (by omega)
  have hpa : ((10 : ℚ) ^ (ea - min ea eb).toNat) * (10 : ℚ) ^ (min ea eb) = (10 : ℚ) ^ ea := by
    rw [← zpow_natCast (10 : ℚ) (ea - min ea eb).toNat, hca, ← zpow_add₀ (by norm_num : (10:ℚ) ≠ 0)]
    ring_nf
  have hpb : ((10 : ℚ) ^ (eb - min ea eb).toNat) * (10 : ℚ) ^ (min ea eb) = (10 : ℚ) ^ eb := by
    rw [← zpow_natCast (10 : ℚ) (eb - min ea eb).toNat, hcb, ← zpow_add₀ (by norm_num : (10:ℚ) ≠ 0)]
    ring_nf
  push_cast
  rw [add_mul]
  rw [mul_assoc, mul_assoc, hpa, hpb]

theorem roundScaled8_exact (d : Decimal) (z : Int)
    (hz : (z : ℚ) = qVal d * 10 ^ (8 : Nat)) : roundScaled8 d = z := by
  rcases d with ⟨v, e⟩
  rw [qVal_mk] at hz
  by_cases he : -8 ≤ e
  · rw [roundScaled8, if_pos he]
    have hee : ((e + 8).toNat : Int) = e + 8 := Int.toNat_of_nonneg (by omega)
    have : ((v * 10 ^ (e + 8).toNat : Int) : ℚ) = (z : ℚ) := by
      push_cast
      rw [hz]
      rw [← zpow_natCast (10 : ℚ) (e + 8).toNat, hee, mul_assoc,
        ← zpow_natCast (10 : ℚ) 8, ← zpow_add₀ (by norm_num : (10:ℚ) ≠ 0)]
      norm_num
    exact_mod_cast this
  · rw [roundScaled8, if_neg he]
    have hp : ((-(e + 8)).toNat : Int) = -(e + 8) := Int.toNat_of_nonneg (by omega)
    set p : Nat := (-(e + 8)).toNat with hpdef
    have hppos : 0 < p := by omega
    have hvz : v = z * 10 ^ p := by
      have h1 : (10 : ℚ) ^ e * 10 ^ (8 : Nat) = ((10 : ℚ) ^ p)⁻¹ := by
        rw [← zpow_natCast (10 : ℚ) 8, ← zpow_add₀ (by norm_num : (10:ℚ) ≠ 0),
          ← zpow_natCast (10 : ℚ) p, ← zpow_neg]
        congr 1
        omega
      rw [mul_assoc, h1] at hz
      have h2 : (z : ℚ) * (10 : ℚ) ^ p = (v : ℚ) := by
        rw [hz]
        field_simp
      exact_mod_cast h2.symm
    have hscale : (0 : Int) < 10 ^ p := by positivity
    have hnatAbs : (v.natAbs) = z.natAbs * 10 ^ p := by
      rw [hvz, Int.natAbs_mul]
      congr 1
      simp [Int.natAbs_pow]
    have hpow : 0 < 10 ^ p := Nat.pos_pow_of_pos p (by norm_num)
    rw [hnatAbs]
    simp only [Nat.mul_div_cancel _ hpow, Nat.mul_mod_left]
    rw [if_neg (show ¬ 10 ^ p ≤ 2 * 0 by omega)]
    simp only [Nat.add_zero]
    have hsign : v < 0 ↔ z < 0 := by
      rw [hvz]
      constructor
      · intro hvneg
        by_contra hz0
        push_neg at hz0
        exact absurd (mul_nonneg hz0 hscale.le) (by omega)
      · intro hzneg
        exact mul_neg_of_neg_of_pos hzneg hscale
    by_cases hz0 : z < 0
    · rw [if_pos (hsign.mpr hz0)]
      omega
    · rw [if_neg (fun hc => hz0 (hsign.mp hc))]
      omega

theorem splitFirst_eq_none {p : Char → Bool} {l : List Char}
    (h : ∀ c ∈ l, p c = false) : splitFirst p l = none := by
  induction l with
  | nil => rfl
  | cons c cs ih =>
      rw [splitFirst, if_neg (by simp [h c (List.mem_cons_self c cs)]),
        ih (fun d hd => h d (List.mem_cons_of_mem c hd))]
      rfl

theorem splitFirst_eq_some {p : Char → Bool} {pre post : List Char} {x : Char}
    (hpre : ∀ c ∈ pre, p c = false) (hx : p x = true) :
    splitFirst p (pre ++ x :: post) = some (pre, post) := by
  induction pre with
  | nil => simp [splitFirst, hx]
  | cons c cs ih =>
      rw [List.cons_append, splitFirst,
        if_neg (by simp [hpre c (List.mem_cons_self c cs)]),
        ih (fun d hd => hpre d (List.mem_cons_of_mem c hd))]
      rfl

theorem digit_not_expChar {c : Char} (h : isDigitChar c = true) :
    ((c = 'e' || c = 'E') : Bool) = false := by
  by_cases h1 : c = 'e'
  · subst h1; exact absurd h (by decide)
  · by_cases h2 : c = 'E'
    · subst h2; exact absurd h (by decide)
    · simp [h1, h2]

theorem digit_not_dot {c : Char} (h : isDigitChar c = true) :
    (decide (c = '.')) = false := by
  by_cases h1 : c = '.'
  · subst h1; exact absurd h (by decide)
  · simp [h1]

theorem digit_not_contains_dot {l : List Char} (h : ∀ c ∈ l, isDigitChar c = true) :
    l.contains '.' = false := by
  induction l with
  | nil => rfl
  | cons c cs ih =>
      have hc : ¬ ('.' = c) := by
        intro hcontra
        exact absurd (h c (List.mem_cons_self c cs)) (by rw [← hcontra]; decide)
      simp only [List.contains_cons]
      rw [ih (fun d hd => h d (List.mem_cons_of_mem c hd))]
      simp [beq_iff_eq, hc]

theorem padLeft8_length {cs : List Char} (h : cs.length ≤ 8) :
    (padLeft8 cs).length = 8 := by
  simp [padLeft8]
  omega

theorem padLeft8_digits {cs : List Char} (h : ∀ c ∈ cs, isDigitChar c = true) :
    ∀ c ∈ padLeft8 cs, isDigitChar c = true := by
  intro c hc
  rcases List.mem_append.mp hc with hrep | hmem
  · rw [List.eq_of_mem_replicate hrep]; decide
  · exact h c hmem

theorem renderFixed8_data (m : Int) :
    (renderFixed8 m).data = (if m < 0 then ['-'] else []) ++
      (natRepr (m.natAbs / 10 ^ 8) ++ '.' :: padLeft8 (natRepr (m.natAbs % 10 ^ 8))) := by
  rw [renderFixed8]
  by_cases hm : m < 0 <;> simp [hm, String.data_append]

theorem natOfDigits_split8 (n : Nat) :
    natOfDigits (natRepr (n / 10 ^ 8) ++ padLeft8 (natRepr (n % 10 ^ 8))) = n := by
  have hlen : (padLeft8 (natRepr (n % 10 ^ 8))).length = 8 :=
    padLeft8_length (natRepr_length_le (by norm_num) (Nat.mod_lt _ (by positivity)))
  rw [natOfDigits_append, hlen, natOfDigits_natRepr]
  rw [padLeft8, natOfDigits_replicate_zero, natOfDigits_natRepr]
  omega

theorem decimalNewFromString_renderFixed8 (m : Int) :
    decimalNewFromString (renderFixed8 m) = some ⟨m, -8⟩ := by
  have hA : ∀ c ∈ natRepr (m.natAbs / 10 ^ 8), isDigitChar c = true := natRepr_all_digits _
  have hB : ∀ c ∈ padLeft8 (natRepr (m.natAbs % 10 ^ 8)), isDigitChar c = true :=
    padLeft8_digits (natRepr_all_digits _)
  have hBlen : (padLeft8 (natRepr (m.natAbs % 10 ^ 8))).length = 8 :=
    padLeft8_length (natRepr_length_le (by norm_num) (Nat.mod_lt _ (by positivity)))
  have hAne : natRepr (m.natAbs / 10 ^ 8) ≠ [] := natRepr_ne_nil _
  have hE : splitFirst (fun c => c = 'e' || c = 'E')
      ((if m < 0 then ['-'] else []) ++ (natRepr (m.natAbs / 10 ^ 8) ++
        '.' :: padLeft8 (natRepr (m.natAbs % 10 ^ 8)))) = none := by
    apply splitFirst_eq_none
    intro c hc
    rcases List.mem_append.mp hc with hs | hab
    · have : c = '-' := by
        by_cases hm : m < 0
        · rw [if_pos hm] at hs; simpa using hs
        · rw [if_neg hm] at hs; simp at hs
      subst this; decide
    · rcases List.mem_append.mp hab with ha | hdb
      · exact digit_not_expChar (hA c ha)
      · rcases List.mem_cons.mp hdb with hdot | hb
        · subst hdot; decide
        · exact digit_not_expChar (hB c hb)
  have hdot : splitFirst (fun c => c = '.')
      (((if m < 0 then ['-'] else []) ++ natRepr (m.natAbs / 10 ^ 8)) ++
        '.' :: padLeft8 (natRepr (m.natAbs % 10 ^ 8))) =
      some ((if m < 0 then ['-'] else []) ++ natRepr (m.natAbs / 10 ^ 8),
        padLeft8 (natRepr (m.natAbs % 10 ^ 8))) := by
    apply splitFirst_eq_some
    · intro c hc
      rcases List.mem_append.mp hc with hs | ha
      · have : c = '-' := by
          by_cases hm : m < 0
          · rw [if_pos hm] at hs; simpa using hs
          · rw [if_neg hm] at hs; simp at hs
        subst this; decide
      · exact digit_not_dot (hA c ha)
    · decide
  have hBdot : (padLeft8 (natRepr (m.natAbs % 10 ^ 8))).contains '.' = false :=
    digit_not_contains_dot hB
  have hBne : padLeft8 (natRepr (m.natAbs % 10 ^ 8)) ≠ [] := by
    intro hcontra
    rw [hcontra] at hBlen
    simp at hBlen
  have hun : parseUnsignedDigits (natRepr (m.natAbs / 10 ^ 8) ++
      padLeft8 (natRepr (m.natAbs % 10 ^ 8))) = some m.natAbs := by
    rw [parseUnsignedDigits, if_pos ⟨fun hc => hAne (List.append_eq_nil.mp hc).1,
      by
        rw [List.all_eq_true]
        intro c hc
        rcases List.mem_append.mp hc with ha | hb
        · exact hA c ha
        · exact hB c hb⟩]
    rw [natOfDigits_split8]
  have hparse : parseSignedDigits (((if m < 0 then ['-'] else []) ++
      natRepr (m.natAbs / 10 ^ 8)) ++ padLeft8 (natRepr (m.natAbs % 10 ^ 8))) =
      some m := by
    by_cases hm : m < 0
    · rw [if_pos hm]
      rw [List.cons_append, List.cons_append, List.nil_append, parseSignedDigits]
      rw [if_pos rfl, hun]
      simp [abs_of_neg hm]
    · rw [if_neg hm, List.nil_append]
      obtain ⟨c0, A0, hA0⟩ := List.exists_cons_of_ne_nil hAne
      rw [hA0, List.cons_append, parseSignedDigits]
      have hc0 : isDigitChar c0 = true := by
        apply hA
        rw [hA0]
        exact List.mem_cons_self c0 A0
      rw [if_neg (fun hcontra => by subst hcontra; exact absurd hc0 (by decide)),
        if_neg (fun hcontra => by subst hcontra; exact absurd hc0 (by decide))]
      rw [← List.cons_append, ← hA0, hun]
      have hcast : ((m.natAbs : Int)) = m := by omega
      simp
      omega
  rw [decimalNewFromString, renderFixed8_data]
  simp only [hE]
  rw [← List.append_assoc]
  simp only [hdot, hparse, hBlen]
  rw [if_neg (by simpa using hBdot), if_neg hBne]
  norm_num [int32Min, int32Max]

theorem renderFixed8_ne_empty (m : Int) : renderFixed8 m ≠ "" := by
  intro hcontra
  have hdata := congrArg String.data hcontra
  rw [renderFixed8_data] at hdata
  rcases hd : (if m < 0 then ['-'] else []) with _ | ⟨c, cs⟩
  · rw [hd] at hdata
    simp at hdata
  · rw [hd] at hdata
    simp at hdata

theorem addDecimalStrings_ok {s1 s2 : String} {d1 d2 : Decimal}
    (h1ne : s1 ≠ "") (h2ne : s2 ≠ "")
    (h1 : decimalNewFromString s1 = some d1) (h2 : decimalNewFromString s2 = some d2) :
    addDecimalStrings s1 s2 = Except.ok ((d1.add d2).stringFixed8) := by
  rw [addDecimalStrings]
  simp only [if_neg h1ne, if_neg h2ne, h1, h2]

theorem decimalNewFromString_zero : decimalNewFromString "0" = some ⟨0, 0⟩ := by decide

theorem qVal_zero : qVal ⟨0, 0⟩ = 0 := by
  rw [qVal_mk]
  norm_num

/-- C4 (amended): starting from an empty ledger, adding amount `a` and then
amount `b` for the same (user, asset), where each amount denotes a value
with at most eight fractional digits (its value scaled by 10^8 is the
integer `za`, resp. `zb`), succeeds twice and stores exactly the sum
`za + zb` rendered with eight fractional digits — the exact decimal sum
`a + b`, since `za + zb` scaled back by 10^8 is that sum. -/
theorem addEntry_twice_exact_sum (user asset a b : String) (da db : Decimal) (za zb : Int)
    (hane : a ≠ "") (hbne : b ≠ "")
    (ha : decimalNewFromString a = some da)
    (hb : decimalNewFromString b = some db)
    (hza : ((za : Int) : ℚ) = qVal da * 10 ^ (8 : Nat))
    (hzb : ((zb : Int) : ℚ) = qVal db * 10 ^ (8 : Nat)) :
    (InMemoryLedger.addEntry ⟨[], []⟩ ⟨user, asset, a⟩).2 = none
    ∧ (InMemoryLedger.addEntry (InMemoryLedger.addEntry ⟨[], []⟩ ⟨user, asset, a⟩).1
        ⟨user, asset, b⟩).2 = none
    ∧ alookup asset ((alookup user (InMemoryLedger.addEntry
        (InMemoryLedger.addEntry ⟨[], []⟩ ⟨user, asset, a⟩).1
        ⟨user, asset, b⟩).1.balances).getD []) = some (renderFixed8 (za + zb))
    ∧ ((za + zb : Int) : ℚ) = (qVal da + qVal db) * 10 ^ (8 : Nat) := by
  have hadd1 : addDecimalStrings "0" a = Except.ok (renderFixed8 za) := by
    rw [addDecimalStrings_ok (by decide) hane decimalNewFromString_zero ha]
    rw [Decimal.stringFixed8,
      roundScaled8_exact (Decimal.add ⟨0, 0⟩ da) za
        (by rw [qVal_add, qVal_zero, zero_add]; exact hza)]
  have hfirst : InMemoryLedger.addEntry ⟨[], []⟩ ⟨user, asset, a⟩ =
      (⟨[(user, [(asset, renderFixed8 za)])], [⟨user, asset, a⟩]⟩, none) := by
    simp [InMemoryLedger.addEntry, alookup, aupdate, hadd1]
  have hb1ne : ¬ renderFixed8 za = "" := renderFixed8_ne_empty za
  have hadd2 : addDecimalStrings (renderFixed8 za) b =
      Except.ok (renderFixed8 (za + zb)) := by
    rw [addDecimalStrings_ok hb1ne hbne (decimalNewFromString_renderFixed8 za) hb]
    have hcancel : (10 : ℚ) ^ (-8 : Int) * 10 ^ (8 : Nat) = 1 := by
      rw [← zpow_natCast (10 : ℚ) 8, ← zpow_add₀ (by norm_num : (10:ℚ) ≠ 0)]
      norm_num
    rw [Decimal.stringFixed8,
      roundScaled8_exact (Decimal.add ⟨za, -8⟩ db) (za + zb)
        (by
          rw [qVal_add, qVal_mk]
          push_cast
          rw [add_mul, mul_assoc, hcancel, mul_one, ← hzb])]
  have hsecond : InMemoryLedger.addEntry
      (⟨[(user, [(asset, renderFixed8 za)])], [⟨user, asset, a⟩]⟩ : InMemoryLedger)
      ⟨user, asset, b⟩ =
      (⟨[(user, [(asset, renderFixed8 (za + zb))])],
        [⟨user, asset, a⟩, ⟨user, asset, b⟩]⟩, none) := by
    simp [InMemoryLedger.addEntry, alookup, aupdate, hadd2, hb1ne]
  refine ⟨by rw [hfirst], ?_, ?_, ?_⟩
  · rw [hfirst]
    exact congrArg Prod.snd hsecond
  · rw [hfirst]
    rw [show (InMemoryLedger.addEntry
        (⟨[(user, [(asset, renderFixed8 za)])], [⟨user, asset, a⟩]⟩ : InMemoryLedger)
        ⟨user, asset, b⟩).1 =
        ⟨[(user, [(asset, renderFixed8 (za + zb))])],
          [⟨user, asset, a⟩, ⟨user, asset, b⟩]⟩ from congrArg Prod.fst hsecond]
    simp [alookup]
  · push_cast
    rw [hza, hzb]
    ring

theorem qVal_scaled8 (z : Int) : ((z : Int) : ℚ) = qVal ⟨z, -8⟩ * 10 ^ (8 : Nat) := by
  rw [qVal_mk]
  have hcancel : (10 : ℚ) ^ (-8 : Int) * 10 ^ (8 : Nat) = 1 := by
    rw [← zpow_natCast (10 : ℚ) 8, ← zpow_add₀ (by norm_num : (10:ℚ) ≠ 0)]
    norm_num
  rw [mul_assoc, hcancel, mul_one]

theorem addEntry_twice_exact_sum_witness :
    alookup "BTC" ((alookup "u1" (InMemoryLedger.addEntry
        (InMemoryLedger.addEntry ⟨[], []⟩ ⟨"u1", "BTC", "0.00000001"⟩).1
        ⟨"u1", "BTC", "0.00000002"⟩).1.balances).getD []) = some "0.00000003" := by
  have h := addEntry_twice_exact_sum "u1" "BTC" "0.00000001" "0.00000002"
    ⟨1, -8⟩ ⟨2, -8⟩ 1 2 (by decide) (by decide) (by decide) (by decide)
    (qVal_scaled8 1) (qVal_scaled8 2)
  rw [h.2.2.1]
  decide

/-- C4 (counterexample): for a = b = `"0.000000005"` — each parses, and the
exact sum is `0.00000001`, representable with eight fractional digits —
two sequential AddEntry calls succeed but store `"0.00000002"`: the first
add already rounds `0.000000005` up to `"0.00000001"`, and the second add
rounds again, so the stored balance differs from the exact sum rendered
with eight fractional digits. -/
theorem addEntry_twice_rounding_cx :
    (InMemoryLedger.addEntry ⟨[], []⟩ ⟨"u", "BTC", "0.000000005"⟩).2 = none
    ∧ (InMemoryLedger.addEntry
        (InMemoryLedger.addEntry ⟨[], []⟩ ⟨"u", "BTC", "0.000000005"⟩).1
        ⟨"u", "BTC", "0.000000005"⟩).2 = none
    ∧ alookup "BTC" ((alookup "u" (InMemoryLedger.addEntry
        (InMemoryLedger.addEntry ⟨[], []⟩ ⟨"u", "BTC", "0.000000005"⟩).1
        ⟨"u", "BTC", "0.000000005"⟩).1.balances).getD []) = some "0.00000002"
    ∧ decimalNewFromString "0.000000005" = some ⟨5, -9⟩
    ∧ ((1 : Int) : ℚ) = (qVal ⟨5, -9⟩ + qVal ⟨5, -9⟩) * 10 ^ (8 : Nat)
    ∧ renderFixed8 1 = "0.00000001"
    ∧ "0.00000002" ≠ "0.00000001" := by
  refine ⟨by decide, by decide, by decide, by decide, ?_, by decide, by decide⟩
  rw [qVal_mk]
  have h9 : (10 : ℚ) ^ (-9 : Int) = ((10 : ℚ) ^ (9 : Nat))⁻¹ := by
    rw [← zpow_natCast (10 : ℚ) 9, ← zpow_neg]
    norm_num
  rw [h9]
  push_cast
  field_simp
  norm_num
